import Mathlib

set_option autoImplicit false

/-!
Verification of the cbgb view engine and HTTP adapter against its
natural-language specification.

The development shallow-embeds the row-selection, reduce and pagination
pipeline of `rest_couch.go` (`processViewResult`, `reduceViewResult`,
`couchDbGetView`, `couchDbRevsDiff`) together with the CouchDB JSON
collation order the pipeline depends on.  Emitted keys and values are
modelled by the tagged variant `Json`; numbers are modelled by `Int`.
Go slices that may run past the length of the underlying row list are
modelled by `Option`, with `none` denoting an out-of-range slice.
-/

/-- A JSON value as emitted by a view map function.  Mirrors the dynamic
`interface\x7b\x7d` values that flow through the Go view pipeline. -/
inductive Json where
  | null : Json
  | bool : Bool → Json
  | num : Int → Json
  | str : String → Json
  | arr : List Json → Json
  | obj : List (String × Json) → Json

/-- Comparison of two naturals as a three-way `Ordering`. -/
def natCmp (a b : Nat) : Ordering :=
  if a < b then .lt else if b < a then .gt else .eq

/-- Comparison of two integers as a three-way `Ordering`. -/
def intCmp (a b : Int) : Ordering :=
  if a < b then .lt else if b < a then .gt else .eq

/-- Code-point comparison of characters. -/
def charCmp (a b : Char) : Ordering :=
  natCmp a.toNat b.toNat

/-- Lexicographic code-point comparison of character lists (CouchDB
string collation: Unicode code-point order). -/
def charsCmp : List Char → List Char → Ordering
  | [], [] => .eq
  | [], _ :: _ => .lt
  | _ :: _, [] => .gt
  | a :: as, b :: bs =>
    match charCmp a b with
    | .eq => charsCmp as bs
    | o => o

/-- Rank of a JSON value's type in the CouchDB collation:
null < booleans < numbers < strings < arrays < objects. -/
def Json.typeRank : Json → Nat
  | .null => 0
  | .bool _ => 1
  | .num _ => 2
  | .str _ => 3
  | .arr _ => 4
  | .obj _ => 5

/-- Rank of a boolean in the collation: false < true. -/
def boolRank (b : Bool) : Nat := cond b 1 0

mutual

/-- CouchDB JSON collation as a three-way comparison.
Modelled from the spec: the external `walrus.CollateJSON` used by
`processViewResult` and `reduceViewResult`, ordering
null < false < true < numbers (numeric order) < strings (code-point
order) < arrays (lexicographic) < objects (lexicographic on sorted
key/value pairs). -/
def Json.cmp : Json → Json → Ordering
  | .null, .null => .eq
  | .bool a, .bool b => natCmp (boolRank a) (boolRank b)
  | .num a, .num b => intCmp a b
  | .str a, .str b => charsCmp a.data b.data
  | .arr a, .arr b => Json.cmpList a b
  | .obj a, .obj b => Json.cmpPairs a b
  | x, y => natCmp x.typeRank y.typeRank

/-- Lexicographic collation of JSON arrays, element by element. -/
def Json.cmpList : List Json → List Json → Ordering
  | [], [] => .eq
  | [], _ :: _ => .lt
  | _ :: _, [] => .gt
  | a :: as, b :: bs =>
    match Json.cmp a b with
    | .eq => Json.cmpList as bs
    | o => o

/-- Lexicographic collation of JSON objects as key/value pair lists. -/
def Json.cmpPairs : List (String × Json) → List (String × Json) → Ordering
  | [], [] => .eq
  | [], _ :: _ => .lt
  | _ :: _, [] => .gt
  | (k1, v1) :: as, (k2, v2) :: bs =>
    match charsCmp k1.data k2.data with
    | .eq =>
      match Json.cmp v1 v2 with
      | .eq => Json.cmpPairs as bs
      | o => o
    | o => o

end

/-- The integer-valued collation the Go code consumes: negative, zero or
positive according to the `Ordering`. -/
def collateJSON (a b : Json) : Int :=
  match Json.cmp a b with
  | .lt => -1
  | .eq => 0
  | .gt => 1

/-- Fuel-driven core of Go's `sort.Search` over the half-open interval
`[i, j)`; `fuel` bounds the number of halving steps. -/
def goSearchAux (f : Nat → Bool) : Nat → Nat → Nat → Nat
  | 0, i, _ => i
  | fuel + 1, i, j =>
    if i < j then
      let m := (i + j) / 2
      if f m then goSearchAux f fuel i m else goSearchAux f fuel (m + 1) j
    else i

/-- Go's `sort.Search(n, f)`: binary search returning the smallest index
in `[0, n)` at which the (monotone) predicate holds, or `n` if none. -/
def goSearch (n : Nat) (f : Nat → Bool) : Nat := goSearchAux f n 0 n

/-- A row of a view result (`ViewRow` in the Go source): document id,
emitted key and emitted value.  The optional attached document of
`IncludeDocs` plays no role in the selection pipeline and is omitted. -/
structure ViewRow where
  id : String
  key : Json
  value : Json

/-- Default row; index accesses of the Go binary-search predicates are
total in Go because `sort.Search` only probes indices below the length,
and the embedding supplies this row as the (never inspected) fallback. -/
def dRow : ViewRow := ⟨"", Json.null, Json.null⟩

/-- Parsed view query parameters (`ViewParams`): absent options are
`none`; `inclusiveEnd` and `reduce` default to true, `limit = 0` and
`skip = 0` mean no limit and no skip. -/
structure ViewParams where
  key : Option Json := none
  startKey : Option Json := none
  endKey : Option Json := none
  descending : Bool := false
  inclusiveEnd : Bool := true
  group : Bool := false
  groupLevel : Nat := 0
  reduce : Bool := true
  limit : Nat := 0
  skip : Nat := 0

/-- Go slice expression `rows[:j]` on a slice whose capacity equals its
length: defined only while `j` stays within the length; `none` models the
out-of-range slice (a panic, or a read of storage past the length when
spare capacity exists). -/
def sliceTo (rows : List ViewRow) (j : Nat) : Option (List ViewRow) :=
  if j ≤ rows.length then some (rows.take j) else none

/-- The start-key predicate passed to `sort.Search` by
`processViewResult`: `CollateJSON(result.Rows[h].Key, p.StartKey) >= 0`. -/
def startKeyPred (rows : List ViewRow) (sk : Json) (h : Nat) : Bool :=
  decide (collateJSON (rows.getD h dRow).key sk ≥ 0)

/-- The end-key predicate passed to `sort.Search` by `processViewResult`:
`> 0` when `InclusiveEnd`, otherwise `>= 0`. -/
def endKeyPred (rows : List ViewRow) (inclusiveEnd : Bool) (ek : Json)
    (h : Nat) : Bool :=
  if inclusiveEnd then decide (collateJSON (rows.getD h dRow).key ek > 0)
  else decide (collateJSON (rows.getD h dRow).key ek ≥ 0)

/-- The in-place reversal `reverseViewRows` (pairwise swaps moving
inward), whose effect on the row list is reversal. -/
def reverseViewRows (rows : List ViewRow) : List ViewRow := rows.reverse

/-- `processViewResult` of `rest_couch.go`: key coercion, start-key
selection, end-key selection, then reversal in descending mode. -/
def processViewResult (rows : List ViewRow) (p : ViewParams) :
    Option (List ViewRow) :=
  let p := if p.key.isSome then { p with startKey := p.key, endKey := p.key } else p
  let step1 : Option (List ViewRow) :=
    match p.startKey with
    | some sk =>
      let i := goSearch rows.length (startKeyPred rows sk)
      if p.descending then sliceTo rows (i + 1) else some (rows.drop i)
    | none => some rows
  match step1 with
  | none => none
  | some rows1 =>
    let step2 : Option (List ViewRow) :=
      match p.endKey with
      | some ek =>
        let i := goSearch rows1.length (endKeyPred rows1 p.inclusiveEnd ek)
        if p.descending then some (rows1.drop i) else some (rows1.take i)
      | none => some rows1
    match step2 with
    | none => none
    | some rows2 => some (if p.descending then reverseViewRows rows2 else rows2)

/-- The row list is sorted by CouchDB collation on keys: the state
established by `sort.Sort(vr.Rows)` before `processViewResult` runs. -/
def RowsSorted (rows : List ViewRow) : Prop :=
  List.Pairwise (fun a b => Json.cmp a.key b.key ≠ .gt) rows

/-- The end-key cut index of `processViewResult`: the result of the Go
binary search over the current row list with the end-key predicate. -/
def endKeyCut (rows : List ViewRow) (inclusiveEnd : Bool) (e : Json) : Nat :=
  goSearch rows.length (endKeyPred rows inclusiveEnd e)

/-- Signature of a design-document reduce function as evaluated in the
request-local sandbox: `(keys, values, rereduce) -> value`.  The sandbox
itself is an external collaborator; the reduce stage is parametric in it. -/
def ReduceFn : Type := List Json → List Json → Bool → Json

/-- Modelled from the spec: `ArrayPrefix`, absent from the sources and
fixed by the grouping rules — with a positive group level an array key is
cut to its prefix of that length and a non-array key is kept whole; with
group level zero every key collapses to null (one bucket keyed by null). -/
def arrayPrefixOf (k : Json) (groupLevel : Nat) : Json :=
  if groupLevel = 0 then Json.null
  else
    match k with
    | .arr a => .arr (a.take groupLevel)
    | _ => k

/-- Group level computed at the top of `reduceViewResult`: `0x7fffffff`
when `Group` is set, overridden by a positive `GroupLevel`. -/
def groupLevelOf (p : ViewParams) : Nat :=
  if p.groupLevel > 0 then p.groupLevel
  else if p.group then 0x7fffffff else 0

/-- The grouped-reduce loop of `reduceViewResult`: take the group key of
the first remaining row, collect the contiguous run of rows whose group
key does not collate above it, reduce their keys and values, and repeat.
The fuel argument bounds the iteration count (each pass consumes at least
the leading row). -/
def reduceGroupsAux (red : ReduceFn) (gl : Nat) : Nat → List ViewRow → List ViewRow
  | 0, _ => []
  | _ + 1, [] => []
  | fuel + 1, row :: rest =>
    let gk := arrayPrefixOf row.key gl
    let keep : ViewRow → Bool :=
      fun r => !(decide (collateJSON gk (arrayPrefixOf r.key gl) < 0))
    let grp := row :: rest.takeWhile keep
    ⟨"", gk, red (grp.map (fun r => r.key)) (grp.map (fun r => r.value)) false⟩ ::
      reduceGroupsAux red gl fuel (rest.dropWhile keep)

/-- `reduceViewResult` of `rest_couch.go`: group-level computation
followed by the grouped-reduce loop over the selected rows. -/
def reduceViewResult (red : ReduceFn) (p : ViewParams) (rows : List ViewRow) :
    List ViewRow :=
  reduceGroupsAux red (groupLevelOf p) rows.length rows

/-- The reduce gate of `couchDbGetView`: the reduce stage runs exactly
when the view carries a reduce function and `p.Reduce` is not false. -/
def applyReduce (red : Option ReduceFn) (p : ViewParams) (rows : List ViewRow) :
    List ViewRow :=
  match red with
  | none => rows
  | some r => if p.reduce then reduceViewResult r p rows else rows

/-- The pagination tail of `couchDbGetView`: a positive `Skip` drops that
many leading rows (clamped to the row count), then a positive `Limit`
keeps at most that many rows (clamped likewise). -/
def paginate (rows : List ViewRow) (skip limit : Nat) : List ViewRow :=
  let rows1 := if skip > 0 then rows.drop (min skip rows.length) else rows
  if limit > 0 then rows1.take (min limit rows1.length) else rows1

/-- The serialized view result: `TotalRows` and the row list. -/
structure ViewResult where
  totalRows : Nat
  rows : List ViewRow

/-- The post-collation pipeline of `couchDbGetView` on the sorted rows:
range selection (`processViewResult`), the optional reduce stage, then
pagination, with `TotalRows` set to the final row count. -/
def viewPipeline (rows : List ViewRow) (p : ViewParams) (red : Option ReduceFn) :
    Option ViewResult :=
  match processViewResult rows p with
  | none => none
  | some rows1 =>
    let rows2 := applyReduce red p rows1
    let rows3 := paginate rows2 p.skip p.limit
    some ⟨rows3.length, rows3⟩

/-- The `maxViewErrors` constant of `rest_couch.go`. -/
def maxViewErrors : Nat := 100

/-- Outcome of running the view map function on one document: either the
function throws, or it emits a list of key/value pairs. -/
inductive MapOutcome where
  | throws : MapOutcome
  | emits : List (Json × Json) → MapOutcome

/-- A document stored in one vbucket, abstracted to its id and the
behaviour of the map function on it. -/
structure MapDoc where
  id : String
  outcome : MapOutcome

/-- The visitor callback loop of `couchDbGetView` over one vbucket,
threading the per-vbucket error counter `numErr`: once the counter
exceeds `maxViewErrors` the callback returns false and the visit stops;
a throwing document bumps the counter and the visit continues; otherwise
the document's emits are stamped with its id and appended. -/
def visitVB : List MapDoc → Nat → List ViewRow × Nat
  | [], numErr => ([], numErr)
  | d :: ds, numErr =>
    if numErr > maxViewErrors then ([], numErr)
    else
      match d.outcome with
      | .throws => visitVB ds (numErr + 1)
      | .emits kvs =>
        let rest := visitVB ds numErr
        (kvs.map (fun kv => ⟨d.id, kv.1, kv.2⟩) ++ rest.1, rest.2)

/-- The vbucket loop of `couchDbGetView`: each vbucket is visited with a
fresh error counter, and the whole view request is aborted (no rows) when
a vbucket's counter ends up above `maxViewErrors`. -/
def mapPhase : List (List MapDoc) → Option (List ViewRow)
  | [] => some []
  | vb :: vbs =>
    let r := visitVB vb 0
    if r.2 > maxViewErrors then none
    else (mapPhase vbs).map (fun rest => r.1 ++ rest)

/-- Number of documents of a vbucket on which the map function throws. -/
def throwCount : List MapDoc → Nat
  | [] => 0
  | d :: ds =>
    (match d.outcome with
     | .throws => 1
     | .emits _ => 0) + throwCount ds

/-- `couchDbRevsDiff` of `rest_couch.go` on a parsed request body: every
entry `(key, val)` is echoed as `(key, \x7bmissing: val\x7d)`. -/
def couchDbRevsDiff (req : List (String × Json)) : List (String × Json) :=
  req.map (fun kv => (kv.1, Json.obj [("missing", kv.2)]))

/-- Modelled from the spec: `computeExp`, absent from the sources and
fixed by P8 and `TestExpirationComputin` — expiration zero is kept (never
expires), a value above 30 days of seconds is already absolute, and a
small positive value is an offset added to the current time. -/
def computeExp (e : Nat) (now : Nat) : Nat :=
  if e = 0 then 0
  else if e > 30 * 24 * 3600 then e
  else now + e

/-- Configuration of the periodic multiplexer: tick period and worker
count, both nonzero. -/
structure Periodically where
  period : Nat
  workers : Nat

/-- Modelled from the spec: the `newPeriodically` constructor, absent
from the sources and fixed by its tests — a zero period or a zero worker
count yields the nil sentinel, anything else constructs the multiplexer. -/
def newPeriodically (period : Nat) (workers : Nat) : Option Periodically :=
  if period = 0 then none
  else if workers = 0 then none
  else some ⟨period, workers⟩

/-- Fixture row emitted for document `a` (`\x7bamount: 1\x7d`) by the view of
`TestCouchViewBasic`. -/
def rowA : ViewRow := ⟨"a", .num 1, .null⟩

/-- Fixture row emitted for document `d` (`\x7bamount: 2\x7d`). -/
def rowD : ViewRow := ⟨"d", .num 2, .null⟩

/-- Fixture row emitted for document `b` (`\x7bamount: 3\x7d`). -/
def rowB : ViewRow := ⟨"b", .num 3, .null⟩

/-- Fixture row emitted for document `c` (`\x7bamount: 4\x7d`). -/
def rowC : ViewRow := ⟨"c", .num 4, .null⟩

/-- The collated fixture rows of `TestCouchViewBasic`, sorted by key. -/
def collatedRows : List ViewRow := [rowA, rowD, rowB, rowC]

/-- A document on which the view map function throws. -/
def throwDoc : MapDoc := ⟨"t", .throws⟩

/-- A concrete reduce function used in witnesses: the number of values
in the group. -/
def countRed : ReduceFn := fun _ vs _ => Json.num vs.length

theorem natCmp_refl (a : Nat) : natCmp a a = .eq := by
  simp [natCmp]

theorem natCmp_eq_eq {a b : Nat} (h : natCmp a b = .eq) : a = b := by
  unfold natCmp at h
  split at h
  · exact absurd h (by simp)
  · split at h
    · exact absurd h (by simp)
    · omega

theorem natCmp_swap (a b : Nat) : (natCmp a b).swap = natCmp b a := by
  unfold natCmp
  split <;> split <;> simp_all [Ordering.swap] <;> omega

theorem natCmp_lt_trans {a b c : Nat} (h1 : natCmp a b = .lt)
    (h2 : natCmp b c = .lt) : natCmp a c = .lt := by
  unfold natCmp at *
  split at h1
  · split at h2
    · simp only [if_pos (by omega : a < c)]
    · simp_all
  · simp_all

theorem natCmp_lt_iff {a b : Nat} : natCmp a b = .lt ↔ a < b := by
  unfold natCmp
  split
  · simp_all
  · split <;> simp_all

theorem intCmp_refl (a : Int) : intCmp a a = .eq := by
  simp [intCmp]

theorem intCmp_eq_eq {a b : Int} (h : intCmp a b = .eq) : a = b := by
  unfold intCmp at h
  split at h
  · exact absurd h (by simp)
  · split at h
    · exact absurd h (by simp)
    · omega

theorem intCmp_swap (a b : Int) : (intCmp a b).swap = intCmp b a := by
  unfold intCmp
  split <;> split <;> simp_all [Ordering.swap] <;> omega

theorem intCmp_lt_trans {a b c : Int} (h1 : intCmp a b = .lt)
    (h2 : intCmp b c = .lt) : intCmp a c = .lt := by
  unfold intCmp at *
  split at h1
  · split at h2
    · simp only [if_pos (by omega : a < c)]
    · simp_all
  · simp_all

theorem charCmp_refl (a : Char) : charCmp a a = .eq := by
  simp [charCmp, natCmp_refl]

theorem charCmp_eq_eq {a b : Char} (h : charCmp a b = .eq) : a = b :=
  Char.ext (UInt32.ext (natCmp_eq_eq h))

theorem charCmp_swap (a b : Char) : (charCmp a b).swap = charCmp b a :=
  natCmp_swap _ _

theorem charCmp_lt_trans {a b c : Char} (h1 : charCmp a b = .lt)
    (h2 : charCmp b c = .lt) : charCmp a c = .lt :=
  natCmp_lt_trans h1 h2

theorem charsCmp_refl (l : List Char) : charsCmp l l = .eq := by
  induction l with
  | nil => rfl
  | cons a as ih => simp [charsCmp, charCmp_refl, ih]

theorem charsCmp_eq_eq : {a b : List Char} → charsCmp a b = .eq → a = b
  | [], [], _ => rfl
  | [], _ :: _, h => by simp [charsCmp] at h
  | _ :: _, [], h => by simp [charsCmp] at h
  | a :: as, b :: bs, h => by
    unfold charsCmp at h
    cases hc : charCmp a b with
    | eq =>
      rw [hc] at h
      rw [charCmp_eq_eq hc, charsCmp_eq_eq h]
    | lt => rw [hc] at h; exact absurd h (by simp)
    | gt => rw [hc] at h; exact absurd h (by simp)

theorem charsCmp_swap : (a b : List Char) → (charsCmp a b).swap = charsCmp b a
  | [], [] => rfl
  | [], _ :: _ => rfl
  | _ :: _, [] => rfl
  | a :: as, b :: bs => by
    unfold charsCmp
    cases hc : charCmp a b with
    | eq =>
      have hc' : charCmp b a = .eq := by
        rw [← charCmp_swap a b, hc]; rfl
      rw [hc']
      exact charsCmp_swap as bs
    | lt =>
      have hc' : charCmp b a = .gt := by
        rw [← charCmp_swap a b, hc]; rfl
      rw [hc']
      rfl
    | gt =>
      have hc' : charCmp b a = .lt := by
        rw [← charCmp_swap a b, hc]; rfl
      rw [hc']
      rfl

theorem charsCmp_lt_trans : {a b c : List Char} → charsCmp a b = .lt →
    charsCmp b c = .lt → charsCmp a c = .lt
  | [], _, _ :: _, _, _ => rfl
  | [], b, [], _, h2 => by cases b <;> simp [charsCmp] at h2
  | _ :: _, [], _, h1, _ => by simp [charsCmp] at h1
  | _ :: _, _ :: _, [], _, h2 => by simp [charsCmp] at h2
  | a :: as, b :: bs, c :: cs, h1, h2 => by
    unfold charsCmp at *
    cases hab : charCmp a b with
    | eq =>
      rw [hab] at h1
      cases hbc : charCmp b c with
      | eq =>
        rw [hbc] at h2
        rw [charCmp_eq_eq hab, hbc]
        exact charsCmp_lt_trans h1 h2
      | lt =>
        rw [charCmp_eq_eq hab, hbc]
      | gt => rw [hbc] at h2; exact absurd h2 (by simp)
    | lt =>
      cases hbc : charCmp b c with
      | eq => rw [← charCmp_eq_eq hbc, hab]
      | lt => rw [charCmp_lt_trans hab hbc]
      | gt => rw [hbc] at h2; exact absurd h2 (by simp)
    | gt => rw [hab] at h1; exact absurd h1 (by simp)

mutual

theorem Json.cmp_refl : (a : Json) → Json.cmp a a = .eq
  | .null => rfl
  | .bool _ => natCmp_refl _
  | .num _ => by simp [Json.cmp, intCmp]
  | .str s => by
    unfold Json.cmp
    induction s.data with
    | nil => rfl
    | cons c cs ih => unfold charsCmp; rw [show charCmp c c = .eq from natCmp_refl _]; exact ih
  | .arr l => Json.cmpList_refl l
  | .obj l => Json.cmpPairs_refl l

theorem Json.cmpList_refl : (l : List Json) → Json.cmpList l l = .eq
  | [] => rfl
  | a :: as => by
    unfold Json.cmpList
    rw [Json.cmp_refl a]
    exact Json.cmpList_refl as

theorem Json.cmpPairs_refl : (l : List (String × Json)) → Json.cmpPairs l l = .eq
  | [] => rfl
  | (k, v) :: as => by
    unfold Json.cmpPairs
    rw [show charsCmp k.data k.data = .eq by
      induction k.data with
      | nil => rfl
      | cons c cs ih => unfold charsCmp; rw [show charCmp c c = .eq from natCmp_refl _]; exact ih]
    rw [Json.cmp_refl v]
    exact Json.cmpPairs_refl as

end

mutual

theorem Json.cmp_eq_eq : ∀ (a b : Json), Json.cmp a b = .eq → a = b := fun a b h => by
  cases a <;> cases b <;>
    first
    | rfl
    | exact Ordering.noConfusion h
    | exact congrArg Json.num (intCmp_eq_eq h)
    | exact congrArg Json.str (String.ext (charsCmp_eq_eq h))
    | exact congrArg Json.arr (Json.cmpList_eq_eq _ _ h)
    | exact congrArg Json.obj (Json.cmpPairs_eq_eq _ _ h)
    | (rename_i x y
       cases x <;> cases y <;> first | rfl | exact Ordering.noConfusion h)

theorem Json.cmpList_eq_eq : ∀ (a b : List Json), Json.cmpList a b = .eq → a = b
  | [], [], _ => rfl
  | [], _ :: _, h => Ordering.noConfusion h
  | _ :: _, [], h => Ordering.noConfusion h
  | a :: as, b :: bs, h => by
    unfold Json.cmpList at h
    cases hc : Json.cmp a b with
    | eq =>
      rw [hc] at h
      rw [Json.cmp_eq_eq a b hc, Json.cmpList_eq_eq as bs h]
    | lt => rw [hc] at h; exact Ordering.noConfusion h
    | gt => rw [hc] at h; exact Ordering.noConfusion h

theorem Json.cmpPairs_eq_eq : ∀ (a b : List (String × Json)), Json.cmpPairs a b = .eq → a = b
  | [], [], _ => rfl
  | [], _ :: _, h => Ordering.noConfusion h
  | _ :: _, [], h => Ordering.noConfusion h
  | (k1, v1) :: as, (k2, v2) :: bs, h => by
    unfold Json.cmpPairs at h
    cases hk : charsCmp k1.data k2.data with
    | eq =>
      rw [hk] at h
      cases hv : Json.cmp v1 v2 with
      | eq =>
        rw [hv] at h
        rw [String.ext (charsCmp_eq_eq hk), Json.cmp_eq_eq v1 v2 hv,
          Json.cmpPairs_eq_eq as bs h]
      | lt => rw [hv] at h; exact Ordering.noConfusion h
      | gt => rw [hv] at h; exact Ordering.noConfusion h
    | lt => rw [hk] at h; exact Ordering.noConfusion h
    | gt => rw [hk] at h; exact Ordering.noConfusion h

end

mutual

theorem Json.cmp_swap : ∀ (a b : Json), (Json.cmp a b).swap = Json.cmp b a := fun a b => by
  cases a <;> cases b <;> simp only [Json.cmp] <;>
    first
    | rfl
    | exact natCmp_swap _ _
    | exact intCmp_swap _ _
    | exact charsCmp_swap _ _
    | exact Json.cmpList_swap _ _
    | exact Json.cmpPairs_swap _ _

theorem Json.cmpList_swap : ∀ (a b : List Json), (Json.cmpList a b).swap = Json.cmpList b a
  | [], [] => rfl
  | [], _ :: _ => rfl
  | _ :: _, [] => rfl
  | a :: as, b :: bs => by
    unfold Json.cmpList
    cases hc : Json.cmp a b with
    | eq =>
      have hc' : Json.cmp b a = .eq := by rw [← Json.cmp_swap a b, hc]; rfl
      rw [hc']
      exact Json.cmpList_swap as bs
    | lt =>
      have hc' : Json.cmp b a = .gt := by rw [← Json.cmp_swap a b, hc]; rfl
      rw [hc']
      rfl
    | gt =>
      have hc' : Json.cmp b a = .lt := by rw [← Json.cmp_swap a b, hc]; rfl
      rw [hc']
      rfl

theorem Json.cmpPairs_swap : ∀ (a b : List (String × Json)),
    (Json.cmpPairs a b).swap = Json.cmpPairs b a
  | [], [] => rfl
  | [], _ :: _ => rfl
  | _ :: _, [] => rfl
  | (k1, v1) :: as, (k2, v2) :: bs => by
    unfold Json.cmpPairs
    cases hk : charsCmp k1.data k2.data with
    | eq =>
      have hk' : charsCmp k2.data k1.data = .eq := by
        rw [← charsCmp_swap k1.data k2.data, hk]; rfl
      rw [hk']
      cases hv : Json.cmp v1 v2 with
      | eq =>
        have hv' : Json.cmp v2 v1 = .eq := by rw [← Json.cmp_swap v1 v2, hv]; rfl
        rw [hv']
        exact Json.cmpPairs_swap as bs
      | lt =>
        have hv' : Json.cmp v2 v1 = .gt := by rw [← Json.cmp_swap v1 v2, hv]; rfl
        rw [hv']
        rfl
      | gt =>
        have hv' : Json.cmp v2 v1 = .lt := by rw [← Json.cmp_swap v1 v2, hv]; rfl
        rw [hv']
        rfl
    | lt =>
      have hk' : charsCmp k2.data k1.data = .gt := by
        rw [← charsCmp_swap k1.data k2.data, hk]; rfl
      rw [hk']
      rfl
    | gt =>
      have hk' : charsCmp k2.data k1.data = .lt := by
        rw [← charsCmp_swap k1.data k2.data, hk]; rfl
      rw [hk']
      rfl

end

mutual

theorem Json.cmp_lt_trans : ∀ (a b c : Json), Json.cmp a b = .lt →
    Json.cmp b c = .lt → Json.cmp a c = .lt := fun a b c h1 h2 => by
  cases a <;> cases b <;> cases c <;>
    first
    | rfl
    | exact Ordering.noConfusion h1
    | exact Ordering.noConfusion h2
    | exact natCmp_lt_trans h1 h2
    | exact intCmp_lt_trans h1 h2
    | exact charsCmp_lt_trans h1 h2
    | exact Json.cmpList_lt_trans _ _ _ h1 h2
    | exact Json.cmpPairs_lt_trans _ _ _ h1 h2

theorem Json.cmpList_lt_trans : ∀ (a b c : List Json), Json.cmpList a b = .lt →
    Json.cmpList b c = .lt → Json.cmpList a c = .lt
  | [], _, _ :: _, _, _ => rfl
  | [], [], [], _, h2 => Ordering.noConfusion h2
  | [], _ :: _, [], _, h2 => Ordering.noConfusion h2
  | _ :: _, [], _, h1, _ => Ordering.noConfusion h1
  | _ :: _, _ :: _, [], _, h2 => Ordering.noConfusion h2
  | a :: as, b :: bs, c :: cs, h1, h2 => by
    unfold Json.cmpList at *
    cases hab : Json.cmp a b with
    | gt => rw [hab] at h1; exact Ordering.noConfusion h1
    | eq =>
      rw [hab] at h1
      cases hbc : Json.cmp b c with
      | gt => rw [hbc] at h2; exact Ordering.noConfusion h2
      | lt => rw [Json.cmp_eq_eq a b hab, hbc]
      | eq =>
        rw [hbc] at h2
        rw [Json.cmp_eq_eq a b hab, hbc]
        exact Json.cmpList_lt_trans as bs cs h1 h2
    | lt =>
      cases hbc : Json.cmp b c with
      | gt => rw [hbc] at h2; exact Ordering.noConfusion h2
      | eq => rw [← Json.cmp_eq_eq b c hbc, hab]
      | lt => rw [Json.cmp_lt_trans a b c hab hbc]

theorem Json.cmpPairs_lt_trans : ∀ (a b c : List (String × Json)),
    Json.cmpPairs a b = .lt → Json.cmpPairs b c = .lt → Json.cmpPairs a c = .lt
  | [], _, _ :: _, _, _ => rfl
  | [], [], [], _, h2 => Ordering.noConfusion h2
  | [], _ :: _, [], _, h2 => Ordering.noConfusion h2
  | _ :: _, [], _, h1, _ => Ordering.noConfusion h1
  | _ :: _, _ :: _, [], _, h2 => Ordering.noConfusion h2
  | (k1, v1) :: as, (k2, v2) :: bs, (k3, v3) :: cs, h1, h2 => by
    unfold Json.cmpPairs at *
    cases hk12 : charsCmp k1.data k2.data with
    | gt => rw [hk12] at h1; exact Ordering.noConfusion h1
    | lt =>
      cases hk23 : charsCmp k2.data k3.data with
      | gt => rw [hk23] at h2; exact Ordering.noConfusion h2
      | lt => rw [charsCmp_lt_trans hk12 hk23]
      | eq => rw [← String.ext (charsCmp_eq_eq hk23), hk12]
    | eq =>
      rw [hk12] at h1
      cases hv12 : Json.cmp v1 v2 with
      | gt => rw [hv12] at h1; exact Ordering.noConfusion h1
      | lt =>
        cases hk23 : charsCmp k2.data k3.data with
        | gt => rw [hk23] at h2; exact Ordering.noConfusion h2
        | lt => rw [String.ext (charsCmp_eq_eq hk12), hk23]
        | eq =>
          rw [hk23] at h2
          cases hv23 : Json.cmp v2 v3 with
          | gt => rw [hv23] at h2; exact Ordering.noConfusion h2
          | lt => rw [String.ext (charsCmp_eq_eq hk12), hk23,
              Json.cmp_lt_trans v1 v2 v3 hv12 hv23]
          | eq => rw [String.ext (charsCmp_eq_eq hk12), hk23,
              ← Json.cmp_eq_eq v2 v3 hv23, hv12]
      | eq =>
        rw [hv12] at h1
        cases hk23 : charsCmp k2.data k3.data with
        | gt => rw [hk23] at h2; exact Ordering.noConfusion h2
        | lt => rw [String.ext (charsCmp_eq_eq hk12), hk23]
        | eq =>
          rw [hk23] at h2
          cases hv23 : Json.cmp v2 v3 with
          | gt => rw [hv23] at h2; exact Ordering.noConfusion h2
          | lt => rw [String.ext (charsCmp_eq_eq hk12), hk23,
              Json.cmp_eq_eq v1 v2 hv12, hv23]
          | eq =>
            rw [hv23] at h2
            rw [String.ext (charsCmp_eq_eq hk12), hk23,
              Json.cmp_eq_eq v1 v2 hv12, hv23]
            exact Json.cmpPairs_lt_trans as bs cs h1 h2

end

theorem Json.cmp_gt_iff {a b : Json} : Json.cmp a b = .gt ↔ Json.cmp b a = .lt := by
  constructor
  · intro h
    rw [← Json.cmp_swap a b, h]
    rfl
  · intro h
    have hs := Json.cmp_swap b a
    rw [h] at hs
    cases hc : Json.cmp a b with
    | lt => rw [hc] at hs; exact Ordering.noConfusion hs
    | eq => rw [hc] at hs; exact Ordering.noConfusion hs
    | gt => rfl

theorem Json.cmp_eq_symm {a b : Json} (h : Json.cmp a b = .eq) :
    Json.cmp b a = .eq := by
  rw [← Json.cmp_swap a b, h]
  rfl

theorem Json.cmp_le_lt_trans {a b c : Json} (h1 : Json.cmp a b ≠ .gt)
    (h2 : Json.cmp b c = .lt) : Json.cmp a c = .lt := by
  cases hc : Json.cmp a b with
  | lt => exact Json.cmp_lt_trans a b c hc h2
  | eq => rw [Json.cmp_eq_eq a b hc]; exact h2
  | gt => exact absurd hc h1

theorem Json.cmp_lt_le_trans {a b c : Json} (h1 : Json.cmp a b = .lt)
    (h2 : Json.cmp b c ≠ .gt) : Json.cmp a c = .lt := by
  cases hc : Json.cmp b c with
  | lt => exact Json.cmp_lt_trans a b c h1 hc
  | eq => rw [← Json.cmp_eq_eq b c hc]; exact h1
  | gt => exact absurd hc h2

theorem Json.cmp_le_trans {a b c : Json} (h1 : Json.cmp a b ≠ .gt)
    (h2 : Json.cmp b c ≠ .gt) : Json.cmp a c ≠ .gt := by
  cases hc : Json.cmp a b with
  | lt => rw [Json.cmp_lt_le_trans hc h2]; exact Ordering.noConfusion
  | eq => rw [Json.cmp_eq_eq a b hc]; exact h2
  | gt => exact absurd hc h1

theorem collateJSON_pos_iff {a b : Json} :
    0 < collateJSON a b ↔ Json.cmp a b = .gt := by
  unfold collateJSON
  cases h : Json.cmp a b <;> simp

theorem collateJSON_nonneg_iff {a b : Json} :
    0 ≤ collateJSON a b ↔ Json.cmp a b ≠ .lt := by
  unfold collateJSON
  cases h : Json.cmp a b <;> simp

theorem collateJSON_zero_iff {a b : Json} :
    collateJSON a b = 0 ↔ Json.cmp a b = .eq := by
  unfold collateJSON
  cases h : Json.cmp a b <;> simp

theorem collateJSON_neg_iff {a b : Json} :
    collateJSON a b < 0 ↔ Json.cmp a b = .lt := by
  unfold collateJSON
  cases h : Json.cmp a b <;> simp

theorem goSearchAux_spec (f : Nat → Bool) :
    ∀ (fuel i j : Nat), i ≤ j → j - i ≤ fuel →
    (∀ a b, i ≤ a → a ≤ b → b < j → f a = true → f b = true) →
    i ≤ goSearchAux f fuel i j ∧ goSearchAux f fuel i j ≤ j ∧
    (∀ k, i ≤ k → k < goSearchAux f fuel i j → f k = false) ∧
    (∀ k, goSearchAux f fuel i j ≤ k → k < j → f k = true) := by
  intro fuel
  induction fuel with
  | zero =>
    intro i j hij hfuel _
    have hji : j = i := by omega
    subst hji
    unfold goSearchAux
    exact ⟨Nat.le_refl _, Nat.le_refl _, fun k hk1 hk2 => by omega,
      fun k hk1 hk2 => by omega⟩
  | succ fuel ih =>
    intro i j hij hfuel mono
    unfold goSearchAux
    by_cases hlt : i < j
    · rw [if_pos hlt]
      simp only
      have hm1 : i ≤ (i + j) / 2 := by omega
      have hm2 : (i + j) / 2 < j := by omega
      by_cases hf : f ((i + j) / 2) = true
      · rw [if_pos hf]
        have ihm := ih i ((i + j) / 2) hm1 (by omega)
          (fun a b ha hab hb hfa => mono a b ha hab (by omega) hfa)
        refine ⟨ihm.1, by omega, ihm.2.2.1, ?_⟩
        intro k hk1 hk2
        by_cases hkm : k < (i + j) / 2
        · exact ihm.2.2.2 k hk1 hkm
        · exact mono ((i + j) / 2) k hm1 (by omega) hk2 hf
      · rw [if_neg hf]
        have ihm := ih ((i + j) / 2 + 1) j (by omega) (by omega)
          (fun a b ha hab hb hfa => mono a b (by omega) hab hb hfa)
        refine ⟨by omega, ihm.2.1, ?_, ihm.2.2.2⟩
        intro k hk1 hk2
        by_cases hkm : (i + j) / 2 + 1 ≤ k
        · exact ihm.2.2.1 k hkm hk2
        · by_cases hfk : f k = true
          · exact absurd (mono k ((i + j) / 2) hk1 (by omega) hm2 hfk)
              (by simp [hf])
          · simp at hfk
            exact hfk
    · rw [if_neg hlt]
      exact ⟨Nat.le_refl i, by omega, fun k hk1 hk2 => by omega,
        fun k hk1 hk2 => by omega⟩

theorem goSearch_spec (n : Nat) (f : Nat → Bool)
    (mono : ∀ a b, a ≤ b → b < n → f a = true → f b = true) :
    goSearch n f ≤ n ∧
    (∀ k, k < goSearch n f → f k = false) ∧
    (∀ k, goSearch n f ≤ k → k < n → f k = true) := by
  have h := goSearchAux_spec f n 0 n (Nat.zero_le n) (by omega)
    (fun a b ha hab hb hfa => mono a b hab hb hfa)
  exact ⟨h.2.1, fun k hk => h.2.2.1 k (Nat.zero_le k) hk, h.2.2.2⟩

theorem rows_getD_eq {rows : List ViewRow} {n : Nat} (h : n < rows.length) :
    rows.getD n dRow = rows[n] :=
  List.getD_eq_getElem rows dRow h

theorem rowsSorted_getElem {rows : List ViewRow} (hsort : RowsSorted rows)
    {a b : Nat} (hab : a < b) (ha : a < rows.length) (hb : b < rows.length) :
    Json.cmp rows[a].key rows[b].key ≠ .gt :=
  List.pairwise_iff_getElem.mp hsort a b ha hb hab

theorem startKeyPred_mono {rows : List ViewRow} (sk : Json)
    (hsort : RowsSorted rows) :
    ∀ a b, a ≤ b → b < rows.length →
      startKeyPred rows sk a = true → startKeyPred rows sk b = true := by
  intro a b hab hb ha
  rcases Nat.eq_or_lt_of_le hab with heq | hlt
  · subst heq
    exact ha
  · unfold startKeyPred at *
    rw [rows_getD_eq (by omega : a < rows.length)] at ha
    rw [rows_getD_eq hb]
    rw [decide_eq_true_iff] at ha
    rw [decide_eq_true_iff]
    rw [ge_iff_le, collateJSON_nonneg_iff] at ha ⊢
    intro hcon
    exact absurd
      (Json.cmp_le_lt_trans (rowsSorted_getElem hsort hlt (by omega) hb) hcon) ha

theorem endKeyPredGT_mono {rows : List ViewRow} (ek : Json)
    (hsort : RowsSorted rows) :
    ∀ a b, a ≤ b → b < rows.length →
      endKeyPred rows true ek a = true → endKeyPred rows true ek b = true := by
  intro a b hab hb ha
  rcases Nat.eq_or_lt_of_le hab with heq | hlt
  · subst heq
    exact ha
  · unfold endKeyPred at *
    simp only [if_pos] at ha ⊢
    rw [rows_getD_eq (by omega : a < rows.length)] at ha
    rw [rows_getD_eq hb]
    rw [decide_eq_true_iff] at ha
    rw [decide_eq_true_iff]
    rw [gt_iff_lt, collateJSON_pos_iff] at ha ⊢
    rw [Json.cmp_gt_iff] at ha ⊢
    have ha2 : a < rows.length := by omega
    have hle : Json.cmp rows[a].key rows[b].key ≠ .gt :=
      rowsSorted_getElem hsort hlt ha2 hb
    exact Json.cmp_lt_le_trans ha hle

theorem mem_take_iff_exists {rows : List ViewRow} {i : Nat} {r : ViewRow} :
    r ∈ rows.take i ↔ ∃ j, ∃ h : j < rows.length, j < i ∧ rows[j] = r := by
  rw [List.mem_iff_getElem]
  constructor
  · rintro ⟨n, hn, hel⟩
    have hn' : n < rows.length := by
      rw [List.length_take] at hn
      omega
    refine ⟨n, hn', ?_, ?_⟩
    · rw [List.length_take] at hn
      omega
    · rw [← hel, List.getElem_take]
  · rintro ⟨j, hj, hji, hel⟩
    refine ⟨j, ?_, ?_⟩
    · rw [List.length_take]
      omega
    · rw [List.getElem_take]
      exact hel

theorem mem_drop_iff_exists {rows : List ViewRow} {i : Nat} {r : ViewRow} :
    r ∈ rows.drop i ↔ ∃ j, ∃ h : j < rows.length, i ≤ j ∧ rows[j] = r := by
  rw [List.mem_iff_getElem]
  constructor
  · rintro ⟨n, hn, hel⟩
    have hlen := hn
    rw [List.length_drop] at hlen
    refine ⟨i + n, by omega, by omega, ?_⟩
    rw [← hel, List.getElem_drop]
  · rintro ⟨j, hj, hij, hel⟩
    refine ⟨j - i, ?_, ?_⟩
    · rw [List.length_drop]
      omega
    · rw [List.getElem_drop]
      have hlt2 : i + (j - i) < rows.length := by omega
      have h2 : rows[i + (j - i)] = rows[j] := by
        congr 1
        omega
      rw [h2]
      exact hel

/-- C1 (counterexample): with InclusiveEnd=false the claimed binary-search
predicate `collate(row.Key, EndKey) > 0` does not give the cut index used
by the code — on the fixture rows with EndKey 2 the code cuts before the
EndKey-equal row while the claimed predicate would cut after it. -/
theorem endKey_claimed_predicate_counterexample :
    processViewResult collatedRows
        { endKey := some (Json.num 2), inclusiveEnd := false } ≠
      some (collatedRows.take (goSearch collatedRows.length
        (fun h => decide (collateJSON (collatedRows.getD h dRow).key (Json.num 2) > 0)))) := by
  intro h
  exact absurd (congrArg (fun o => (o.getD []).length) h) (by decide)

/-- C1 (amended): for every collated row list with only EndKey set, range
selection cuts at the index found by binary-searching with the predicate
`collate(row.Key, EndKey) > 0` when InclusiveEnd=true and `>= 0` when
InclusiveEnd=false; ascending mode keeps the rows before the cut, so a
row whose key collates equal to EndKey is kept exactly when
InclusiveEnd=true, while descending mode keeps the rows from the cut on
(then reverses them), so an EndKey-equal row is kept exactly when
InclusiveEnd=false. -/
theorem endKey_cut_and_inclusion (rows : List ViewRow) (p : ViewParams) (e : Json)
    (hsort : RowsSorted rows) (hk : p.key = none) (hs : p.startKey = none)
    (he : p.endKey = some e) :
    processViewResult rows p =
      some (if p.descending
        then reverseViewRows (rows.drop (endKeyCut rows p.inclusiveEnd e))
        else rows.take (endKeyCut rows p.inclusiveEnd e)) ∧
    (∀ r ∈ rows, collateJSON r.key e = 0 →
      ((r ∈ (if p.descending
          then reverseViewRows (rows.drop (endKeyCut rows p.inclusiveEnd e))
          else rows.take (endKeyCut rows p.inclusiveEnd e))) ↔
        p.inclusiveEnd = !p.descending)) := by
  have hmono : ∀ a b, a ≤ b → b < rows.length →
      endKeyPred rows p.inclusiveEnd e a = true →
      endKeyPred rows p.inclusiveEnd e b = true := by
    cases hincl : p.inclusiveEnd
    · exact startKeyPred_mono e hsort
    · exact endKeyPredGT_mono e hsort
  have hspec := goSearch_spec rows.length (endKeyPred rows p.inclusiveEnd e) hmono
  rw [show goSearch rows.length (endKeyPred rows p.inclusiveEnd e) =
    endKeyCut rows p.inclusiveEnd e from rfl] at hspec
  constructor
  · unfold processViewResult
    rw [hk]
    simp only [Option.isSome_none, Bool.false_eq_true, if_false, hs, he]
    cases hd : p.descending <;>
      simp [endKeyCut, reverseViewRows]
  · intro r hr hcoll
    rw [collateJSON_zero_iff] at hcoll
    rcases List.mem_iff_getElem.mp hr with ⟨j, hj, hel⟩
    have hpredval : ∀ j' (hj' : j' < rows.length), rows[j'] = r →
        endKeyPred rows p.inclusiveEnd e j' = (!p.inclusiveEnd) := by
      intro j' hj' hel'
      unfold endKeyPred
      rw [rows_getD_eq hj', hel']
      cases hincl : p.inclusiveEnd
      · simp only [Bool.false_eq_true, if_false, Bool.not_false]
        rw [decide_eq_true_iff, ge_iff_le, collateJSON_nonneg_iff, hcoll]
        exact fun hcon => Ordering.noConfusion hcon
      · simp only [if_pos, Bool.not_true]
        rw [decide_eq_false_iff_not, gt_iff_lt, collateJSON_pos_iff, hcoll]
        exact fun hcon => Ordering.noConfusion hcon
    cases hd : p.descending
    · simp only [Bool.false_eq_true, if_false, Bool.not_false]
      constructor
      · intro hmem
        rcases mem_take_iff_exists.mp hmem with ⟨j', hj', hji, hel'⟩
        have hpv := hpredval j' hj' hel'
        have hfalse := hspec.2.1 j' hji
        rw [hfalse] at hpv
        cases hincl : p.inclusiveEnd
        · rw [hincl] at hpv
          exact absurd hpv.symm (by simp)
        · rfl
      · intro hincl
        refine mem_take_iff_exists.mpr ⟨j, hj, ?_, hel⟩
        have hpv := hpredval j hj hel
        rw [hincl] at hpv
        by_contra hge
        have ht := hspec.2.2 j (by omega) hj
        rw [hincl] at ht
        rw [ht] at hpv
        exact absurd hpv.symm (by simp)
    · simp only [if_pos, Bool.not_true, reverseViewRows, List.mem_reverse]
      constructor
      · intro hmem
        rcases mem_drop_iff_exists.mp hmem with ⟨j', hj', hij, hel'⟩
        have hpv := hpredval j' hj' hel'
        have htrue := hspec.2.2 j' hij hj'
        rw [htrue] at hpv
        cases hincl : p.inclusiveEnd
        · rfl
        · rw [hincl] at hpv
          exact absurd hpv.symm (by simp)
      · intro hincl
        refine mem_drop_iff_exists.mpr ⟨j, hj, ?_, hel⟩
        have hpv := hpredval j hj hel
        rw [hincl] at hpv
        by_contra hlt
        have ht := hspec.2.1 j (by omega)
        rw [hincl] at ht
        rw [ht] at hpv
        exact absurd hpv.symm (by simp)

/-- C1 (witness): the amended theorem applied on the fixture rows with
EndKey 2, InclusiveEnd true and ascending order: the EndKey-equal row d
is kept. -/
theorem collatedRows_sorted : RowsSorted collatedRows := by
  unfold RowsSorted
  decide

theorem endKey_cut_and_inclusion_witness :
    RowsSorted collatedRows ∧ rowD ∈ collatedRows ∧
    collateJSON rowD.key (Json.num 2) = 0 ∧
    rowD ∈ collatedRows.take (endKeyCut collatedRows true (Json.num 2)) := by
  have h := endKey_cut_and_inclusion collatedRows { endKey := some (Json.num 2) }
    (Json.num 2) collatedRows_sorted rfl rfl rfl
  have hmem : rowD ∈ collatedRows := by
    unfold collatedRows
    exact List.mem_cons_of_mem _ (List.mem_cons_self _ _)
  exact ⟨collatedRows_sorted, hmem, rfl, (h.2 rowD hmem rfl).mpr rfl⟩



/-- C4: for every collated row list, parameters in ascending mode whose
StartKey collates strictly above EndKey select zero rows. -/
theorem ascending_start_above_end_yields_empty (rows : List ViewRow)
    (p : ViewParams) (s e : Json) (hsort : RowsSorted rows) (hk : p.key = none)
    (hs : p.startKey = some s) (he : p.endKey = some e)
    (hd : p.descending = false) (hse : collateJSON s e > 0) :
    processViewResult rows p = some [] := by
  unfold processViewResult
  rw [hk]
  simp only [Option.isSome_none, Bool.false_eq_true, if_false, hs, he, hd]
  have hspec1 := goSearch_spec rows.length (startKeyPred rows s)
    (startKeyPred_mono s hsort)
  set i1 := goSearch rows.length (startKeyPred rows s) with hi1
  have hall : ∀ h, h < (rows.drop i1).length →
      endKeyPred (rows.drop i1) p.inclusiveEnd e h = true := by
    intro h hh
    have hh' : h < (rows.drop i1).length := hh
    rw [List.length_drop] at hh'
    have hlen : i1 + h < rows.length := by omega
    have hpred : startKeyPred rows s (i1 + h) = true :=
      hspec1.2.2 (i1 + h) (by omega) hlen
    unfold startKeyPred at hpred
    rw [rows_getD_eq hlen, decide_eq_true_iff, ge_iff_le,
      collateJSON_nonneg_iff] at hpred
    have hgt : Json.cmp ((rows.drop i1)[h]).key e = .gt := by
      rw [List.getElem_drop]
      rw [Json.cmp_gt_iff]
      have hes : Json.cmp e s = .lt := by
        rw [← Json.cmp_gt_iff]
        rw [gt_iff_lt, collateJSON_pos_iff] at hse
        exact hse
      refine Json.cmp_lt_le_trans hes ?_
      intro hg
      exact hpred (Json.cmp_gt_iff.mp hg)
    unfold endKeyPred
    rw [rows_getD_eq hh]
    cases hincl : p.inclusiveEnd
    · simp only [Bool.false_eq_true, if_false]
      rw [decide_eq_true_iff, ge_iff_le, collateJSON_nonneg_iff, hgt]
      exact Ordering.noConfusion
    · simp only [if_pos]
      rw [decide_eq_true_iff, gt_iff_lt, collateJSON_pos_iff]
      exact hgt
  have hspec2 := goSearch_spec (rows.drop i1).length
    (endKeyPred (rows.drop i1) p.inclusiveEnd e) (fun a b hab hb _ => hall b hb)
  set i2 := goSearch (rows.drop i1).length
    (endKeyPred (rows.drop i1) p.inclusiveEnd e) with hi2def
  have hi2 : i2 = 0 := by
    rcases Nat.eq_zero_or_pos i2 with h0 | hpos
    · exact h0
    · have hlen0 : 0 < (rows.drop i1).length := Nat.lt_of_lt_of_le hpos hspec2.1
      have hf := hspec2.2.1 0 hpos
      rw [hall 0 hlen0] at hf
      exact absurd hf (by simp)
  rw [hi2]
  simp

/-- C4 (witness): on the fixture rows, startkey=3 with endkey=1 in
ascending mode selects zero rows, as in `TestCouchViewBasic`. -/
theorem ascending_start_above_end_yields_empty_witness :
    RowsSorted collatedRows ∧ collateJSON (Json.num 3) (Json.num 1) > 0 ∧
    processViewResult collatedRows
      { startKey := some (Json.num 3), endKey := some (Json.num 1) } = some [] :=
  ⟨collatedRows_sorted, by decide,
    ascending_start_above_end_yields_empty collatedRows
      { startKey := some (Json.num 3), endKey := some (Json.num 1) }
      (Json.num 3) (Json.num 1) collatedRows_sorted rfl rfl rfl rfl (by decide)⟩

/-- C6: a Key parameter coerces both StartKey and EndKey to the Key, so
processing with Key=k gives the same result as processing with
StartKey=EndKey=k and no Key, regardless of any StartKey or EndKey the
query also carried. -/
theorem key_overrides_start_end (rows : List ViewRow) (p : ViewParams)
    (k : Json) (hk : p.key = some k) :
    processViewResult rows p =
      processViewResult rows
        { p with key := none, startKey := some k, endKey := some k } := by
  unfold processViewResult
  rw [hk]
  rfl

/-- C6 (witness): on the fixture rows, key=2 with startkey=1 and
endkey=3 behaves exactly like startkey=endkey=2, as in
`TestCouchViewBasic`. -/
theorem key_overrides_start_end_witness :
    ({ key := some (Json.num 2), startKey := some (Json.num 1),
        endKey := some (Json.num 3) } : ViewParams).key = some (Json.num 2) ∧
    processViewResult collatedRows
        { key := some (Json.num 2), startKey := some (Json.num 1),
          endKey := some (Json.num 3) } =
      processViewResult collatedRows
        { key := none, startKey := some (Json.num 2),
          endKey := some (Json.num 2) } :=
  ⟨rfl, key_overrides_start_end collatedRows
    { key := some (Json.num 2), startKey := some (Json.num 1),
      endKey := some (Json.num 3) } (Json.num 2) rfl⟩

/-- C10 (failing input): with Descending=true and a StartKey collating
above every key, the binary search returns the full length and the
start-key trim slices one past the end of the row list — an out-of-range
slice, not the claimed in-bounds full list. -/
theorem descending_start_above_all_overruns :
    processViewResult collatedRows
      { startKey := some (Json.num 5), descending := true } = none := rfl

theorem throwCount_cons_throws {d : MapDoc} (ds : List MapDoc)
    (h : d.outcome = .throws) : throwCount (d :: ds) = 1 + throwCount ds := by
  rw [show throwCount (d :: ds) =
    (match d.outcome with
     | .throws => 1
     | .emits _ => 0) + throwCount ds from rfl, h]

theorem throwCount_cons_emits {d : MapDoc} (ds : List MapDoc)
    {kvs : List (Json × Json)} (h : d.outcome = .emits kvs) :
    throwCount (d :: ds) = throwCount ds := by
  rw [show throwCount (d :: ds) =
    (match d.outcome with
     | .throws => 1
     | .emits _ => 0) + throwCount ds from rfl, h]
  rw [Nat.zero_add]

theorem visitVB_snd : ∀ (docs : List MapDoc) (n : Nat), n ≤ maxViewErrors + 1 →
    (visitVB docs n).2 = min (n + throwCount docs) (maxViewErrors + 1) := by
  intro docs
  induction docs with
  | nil =>
    intro n hn
    unfold visitVB throwCount
    omega
  | cons d ds ih =>
    intro n hn
    unfold visitVB
    by_cases hgt : n > maxViewErrors
    · rw [if_pos hgt]
      have hn101 : n = maxViewErrors + 1 := by omega
      unfold throwCount
      simp only
      omega
    · rw [if_neg hgt]
      cases houtcome : d.outcome with
      | throws =>
        simp only
        rw [ih (n + 1) (by omega), throwCount_cons_throws ds houtcome]
        omega
      | emits kvs =>
        simp only
        rw [ih n (by omega), throwCount_cons_emits ds houtcome]

/-- C2 (counterexample): 101 throwing documents split 60/41 across two
vbuckets put the total number of map errors above `maxViewErrors`, yet
the view is not aborted, because the counter is reset for every vbucket. -/
theorem map_errors_across_vbuckets_counterexample :
    maxViewErrors <
      throwCount (List.replicate 60 throwDoc) +
        throwCount (List.replicate 41 throwDoc) ∧
    mapPhase [List.replicate 60 throwDoc, List.replicate 41 throwDoc] =
      some [] := by
  constructor
  · decide
  · rfl

/-- C2 (amended): the map-error counter is per vbucket — a throwing
document bumps the current vbucket's counter and evaluation continues —
and the view request is aborted exactly when the map function throws on
more than `maxViewErrors` documents of a single vbucket. -/
theorem map_errors_abort_iff_per_vbucket : ∀ (vbs : List (List MapDoc)),
    (mapPhase vbs = none ↔ ∃ vb ∈ vbs, maxViewErrors < throwCount vb) := by
  intro vbs
  induction vbs with
  | nil =>
    unfold mapPhase
    simp
  | cons vb vbs ih =>
    unfold mapPhase
    have hv := visitVB_snd vb 0 (by omega)
    by_cases habort : (visitVB vb 0).2 > maxViewErrors
    · rw [if_pos habort]
      have hcount : maxViewErrors < throwCount vb := by
        rw [hv] at habort
        omega
      simp only [List.exists_mem_cons_iff]
      constructor
      · intro _
        exact Or.inl hcount
      · intro _
        trivial
    · rw [if_neg habort]
      have hcount : ¬ maxViewErrors < throwCount vb := by
        rw [hv] at habort
        omega
      rw [Option.map_eq_none', ih, List.exists_mem_cons_iff]
      constructor
      · intro h
        exact Or.inr h
      · intro h
        rcases h with h | h
        · exact absurd h hcount
        · exact h

theorem reduceGroupsAux_nil (red : ReduceFn) (gl fuel : Nat) :
    reduceGroupsAux red gl fuel [] = [] := by
  cases fuel <;> rfl

theorem arrayPrefixOf_zero (k : Json) : arrayPrefixOf k 0 = Json.null := by
  unfold arrayPrefixOf
  simp

/-- C3: with a reduce function present, Reduce not false, and neither
Group nor GroupLevel set, the reduce stage on a non-empty selected row
list produces exactly one row whose Key is null and whose Value is
`reduce(keys, values, false)` over the keys and values of all rows. -/
theorem reduce_no_grouping_single_row (rows : List ViewRow) (p : ViewParams)
    (red : ReduceFn) (hne : rows ≠ []) (hg : p.group = false)
    (hgl : p.groupLevel = 0) (hr : p.reduce = true) :
    applyReduce (some red) p rows =
      [⟨"", Json.null,
        red (rows.map (fun r => r.key)) (rows.map (fun r => r.value)) false⟩] := by
  have hgl0 : groupLevelOf p = 0 := by
    unfold groupLevelOf
    rw [hgl, hg]
    simp
  unfold applyReduce
  rw [hr]
  simp only [if_pos]
  unfold reduceViewResult
  rw [hgl0]
  cases rows with
  | nil => exact absurd rfl hne
  | cons row rest =>
    rw [List.length_cons]
    simp only [reduceGroupsAux]
    have hkeep : ∀ r : ViewRow,
        (!(decide (collateJSON (arrayPrefixOf row.key 0)
          (arrayPrefixOf r.key 0) < 0))) = true := by
      intro r
      rw [arrayPrefixOf_zero, arrayPrefixOf_zero]
      rfl
    rw [List.takeWhile_eq_self_iff.mpr (fun r _ => hkeep r),
      List.dropWhile_eq_nil_iff.mpr (fun r _ => hkeep r),
      reduceGroupsAux_nil, arrayPrefixOf_zero]

/-- C3 (witness): the no-grouping reduce on the fixture rows yields the
single null-keyed row carrying the reduce of all keys and values, as in
`TestCouchViewReduceBasic`. -/
theorem reduce_no_grouping_single_row_witness :
    collatedRows ≠ [] ∧
    applyReduce (some countRed) {} collatedRows =
      [⟨"", Json.null,
        countRed (collatedRows.map (fun r => r.key))
          (collatedRows.map (fun r => r.value)) false⟩] :=
  ⟨by simp [collatedRows],
    reduce_no_grouping_single_row collatedRows {} countRed
      (by simp [collatedRows]) rfl rfl rfl⟩

theorem drop_min_eq (rows : List ViewRow) (skip : Nat) :
    rows.drop (min skip rows.length) = rows.drop skip := by
  rcases Nat.le_total skip rows.length with h | h
  · rw [Nat.min_eq_left h]
  · rw [Nat.min_eq_right h, List.drop_length,
      (List.drop_eq_nil_of_le h).symm]

theorem take_min_eq (rows : List ViewRow) (limit : Nat) :
    rows.take (min limit rows.length) = rows.take limit := by
  rcases Nat.le_total limit rows.length with h | h
  · rw [Nat.min_eq_left h]
  · rw [Nat.min_eq_right h, List.take_length]
    exact (List.take_of_length_le h).symm

theorem paginate_eq (rows : List ViewRow) (skip limit : Nat) (hl : 0 < limit) :
    paginate rows skip limit = (rows.drop skip).take limit := by
  unfold paginate
  have h1 : (if skip > 0 then rows.drop (min skip rows.length) else rows) =
      rows.drop skip := by
    split
    · exact drop_min_eq rows skip
    · have h0 : skip = 0 := by omega
      rw [h0, List.drop_zero]
  simp only [h1]
  rw [if_pos hl]
  exact take_min_eq _ _

/-- C5: after range selection and the optional reduce stage, the
pipeline drops the first Skip rows, then truncates to at most Limit rows
(in that order), and TotalRows reports the row count after this
pagination. -/
theorem pagination_skip_then_limit_totalRows (rows : List ViewRow)
    (p : ViewParams) (red : Option ReduceFn) (rows1 : List ViewRow)
    (hp : processViewResult rows p = some rows1) (hl : 0 < p.limit) :
    viewPipeline rows p red =
      some ⟨(((applyReduce red p rows1).drop p.skip).take p.limit).length,
        ((applyReduce red p rows1).drop p.skip).take p.limit⟩ := by
  unfold viewPipeline
  rw [hp]
  simp only
  rw [paginate_eq _ _ _ hl]

/-- C5 (witness): on the fixture rows with skip=1 and limit=1 and no
reduce function, the pipeline keeps one row and reports TotalRows 1. -/
theorem pagination_skip_then_limit_totalRows_witness :
    processViewResult collatedRows { skip := 1, limit := 1 } =
      some collatedRows ∧
    0 < ({ skip := 1, limit := 1 } : ViewParams).limit ∧
    viewPipeline collatedRows { skip := 1, limit := 1 } none =
      some ⟨(((applyReduce none { skip := 1, limit := 1 } collatedRows).drop 1).take 1).length,
        ((applyReduce none { skip := 1, limit := 1 } collatedRows).drop 1).take 1⟩ :=
  ⟨rfl, by decide,
    pagination_skip_then_limit_totalRows collatedRows { skip := 1, limit := 1 }
      none collatedRows rfl (by decide)⟩

/-- C7: expiration normalization — zero is kept as zero, a value above
30 days of seconds is stored verbatim, and a small positive value is
stored as now plus the offset. -/
theorem computeExp_normalization : ∀ (e now : Nat),
    computeExp 0 now = 0 ∧
    (e > 30 * 24 * 3600 → computeExp e now = e) ∧
    (0 < e → e ≤ 30 * 24 * 3600 → computeExp e now = now + e) := by
  intro e now
  refine ⟨rfl, ?_, ?_⟩
  · intro h
    unfold computeExp
    rw [if_neg (by omega), if_pos h]
  · intro h1 h2
    unfold computeExp
    rw [if_neg (by omega), if_neg (by omega)]

/-- C7 (witness): the three fixtures of `TestExpirationComputin` at the
current time 2013-03-05T18:01:00Z (epoch 1362506460). -/
theorem computeExp_normalization_witness :
    computeExp 0 1362506460 = 0 ∧
    computeExp 838424824 1362506460 = 838424824 ∧
    computeExp 300 1362506460 = 1362506760 :=
  ⟨(computeExp_normalization 0 1362506460).1,
    (computeExp_normalization 838424824 1362506460).2.1 (by norm_num),
    (computeExp_normalization 300 1362506460).2.2 (by norm_num) (by norm_num)⟩

/-- C8: the `_revs_diff` response echoes the request — the response has
exactly the request's keys, and each key maps to the object
`\x7bmissing: v\x7d` where `v` is that key's value in the request. -/
theorem revsDiff_echoes_missing : ∀ (req : List (String × Json)),
    (couchDbRevsDiff req).map Prod.fst = req.map Prod.fst ∧
    ∀ k : String, (couchDbRevsDiff req).lookup k =
      (req.lookup k).map (fun v => Json.obj [("missing", v)]) := by
  intro req
  constructor
  · unfold couchDbRevsDiff
    rw [List.map_map]
    rfl
  · intro k
    induction req with
    | nil => rfl
    | cons kv rest ih =>
      rcases kv with ⟨s, v⟩
      unfold couchDbRevsDiff at ih ⊢
      simp only [List.map_cons]
      cases hks : k == s
      · simp [List.lookup, hks, ih]
      · simp [List.lookup, hks]

/-- C9: the periodic multiplexer constructor fails with the nil sentinel
exactly when the period or the worker count is zero, and succeeds on all
other inputs. -/
theorem newPeriodically_nil_iff_zero : ∀ (period workers : Nat),
    (newPeriodically period workers = none ↔ period = 0 ∨ workers = 0) := by
  intro period workers
  unfold newPeriodically
  split
  · simp_all
  · split
    · simp_all
    · simp_all
